import Mathlib

/-!
Shallow embedding of the validated-pattern-converter Makefile analyzer
(`vpconverter/makefile_analyzer.py`) and its variable-expansion engine
(`vpconverter/variable_expander.py`).

Python strings are modelled as `List Char`; Python dicts as
insertion-ordered association lists (assignment replaces in place,
new keys are appended, like CPython dicts); Python sets that the code
only reads via membership / iteration are modelled as insertion-ordered
duplicate-free lists.  Regular expressions used by the source are
translated into explicit scanning functions with the backtracking
behaviour the concrete patterns have.
-/

abbrev Str := List Char

/-- Python whitespace: the characters stripped by `str.strip()` / split by
`str.split()` and matched by the regex class `\s` (ASCII inputs). -/
def isWsChar (c : Char) : Bool :=
  c == ' ' || c == '\t' || c == '\n' || c == '\x0b' || c == '\x0c' || c == '\r'

/-- The regex class `\w` on ASCII input: letters, digits, underscore. -/
def isWordChar (c : Char) : Bool :=
  c.isAlphanum || c == '_'

def toLowerStr (s : Str) : Str := s.map Char.toLower

/-- Python `s.startswith(pat)`. -/
def isPrefixL : Str → Str → Bool
  | [], _ => true
  | _ :: _, [] => false
  | p :: ps, c :: cs => p == c && isPrefixL ps cs

/-- Python `pat in s` (substring containment). -/
def isSubstr (pat : Str) : Str → Bool
  | [] => pat.isEmpty
  | c :: rest => isPrefixL pat (c :: rest) || isSubstr pat rest

/-- Python `s.find(c)` for a single character, as an `Option` (Python uses -1). -/
def idxOfChar (c : Char) : Str → Option Nat
  | [] => none
  | x :: xs => if x == c then some 0 else (idxOfChar c xs).map (· + 1)

/-- Python `s.split(sep, 1)` restricted to the case where it splits:
returns the text before and after the first occurrence of `sep`,
or `none` when `sep` does not occur (Python would return `[s]`). -/
def splitFirstAux (sep : Str) : Str → Str → Option (Str × Str)
  | acc, [] => if isPrefixL sep [] then some (acc.reverse, []) else none
  | acc, c :: rest =>
    if isPrefixL sep (c :: rest) then some (acc.reverse, (c :: rest).drop sep.length)
    else splitFirstAux sep (c :: acc) rest

def splitFirst (sep s : Str) : Option (Str × Str) := splitFirstAux sep [] s

def lstripWs (s : Str) : Str := s.dropWhile (fun c => isWsChar c)

/-- Python `str.strip()`. -/
def stripWs (s : Str) : Str := ((lstripWs s).reverse.dropWhile (fun c => isWsChar c)).reverse

/-- The group captured by the shell pattern on `$(shell C)`: the text after
the greedy `\s+` backtracking inside `" " ++ C`. -/
def shellGrp (C : Str) : Str :=
  (' ' :: C).drop (min ((' ' :: C).takeWhile isWsChar).length C.length)

/-- Python `str.split()` with no arguments: split on whitespace runs,
ignoring leading and trailing whitespace. -/
def splitWsAux : Str → Str → List Str
  | tok, [] => if tok.isEmpty then [] else [tok.reverse]
  | tok, c :: rest =>
    if isWsChar c then
      if tok.isEmpty then splitWsAux [] rest else tok.reverse :: splitWsAux [] rest
    else splitWsAux (c :: tok) rest

def splitWs (s : Str) : List Str := splitWsAux [] s

/-- Python `sep.join(xs)` for a one-character separator. -/
def joinSep (c : Char) : List Str → Str
  | [] => []
  | [x] => x
  | x :: y :: rest => x ++ c :: joinSep c (y :: rest)

/-- Python `s.replace(pat, repl)` (all non-overlapping occurrences, left to
right); `pat` is non-empty at every call site.  The fuel is the length of
`s`, which suffices because every step consumes at least one character. -/
def replaceAllF (pat repl : Str) : Nat → Str → Str
  | 0, s => s
  | _ + 1, [] => []
  | n + 1, c :: rest =>
    if isPrefixL pat (c :: rest) && !pat.isEmpty then
      repl ++ replaceAllF pat repl n ((c :: rest).drop pat.length)
    else c :: replaceAllF pat repl n rest

def replaceAll (pat repl s : Str) : Str := replaceAllF pat repl s.length s

/-- Insertion-ordered association list lookup (CPython dict `d[k]` / `k in d`). -/
def assocGet {α : Type} : List (Str × α) → Str → Option α
  | [], _ => none
  | (k0, v) :: rest, k => if k0 = k then some v else assocGet rest k

/-- Insertion-ordered association list update (CPython dict `d[k] = v`:
replaces in place, appends new keys at the end). -/
def assocPut {α : Type} : List (Str × α) → Str → α → List (Str × α)
  | [], k, v => [(k, v)]
  | (k0, v0) :: rest, k, v =>
    if k0 = k then (k0, v) :: rest else (k0, v0) :: assocPut rest k v

/-- Insertion-ordered set: add one element (Python `set.add`). -/
def setAdd (s : List Str) (x : Str) : List Str := if x ∈ s then s else s ++ [x]

/-- Insertion-ordered set: union (Python `set.update`). -/
def setUnion (s : List Str) (xs : List Str) : List Str := xs.foldl setAdd s

/-- First index of an element in a list (Python `list.index`; the element is
present at every call site reached by the source, so the fallback value
`length` is never produced there). -/
def indexOfL (xs : List Str) (x : Str) : Nat :=
  match xs with
  | [] => 0
  | y :: rest => if y = x then 0 else indexOfL rest x + 1

/-! ## Data model (`makefile_analyzer.py`) -/

/-- `MakefileTarget`: a Makefile target with its dependencies and commands. -/
structure MakefileTarget where
  name : Str
  dependencies : List Str := []
  commands : List Str := []
  description : Option Str := none
  is_phony : Bool := false
  is_pattern_rule : Bool := false
  is_double_colon : Bool := false
  calls_scripts : List Str := []
  uses_helm : Bool := false
  uses_kubectl : Bool := false
  uses_oc : Bool := false
deriving DecidableEq, Repr

/-- `MakefileAnalysis`: results from Makefile analysis.  The `path` field and
the derived variable-expansion result fields of the Python dataclass are not
part of the parsing core modelled here (the expansion engine is modelled
separately below). -/
structure MakefileAnalysis where
  targets : List (Str × MakefileTarget) := []
  pattern_rules : List MakefileTarget := []
  vars : List (Str × Str) := []
  includes : List Str := []
  has_install_target : Bool := false
  has_uninstall_target : Bool := false
  install_flow : List Str := []
  uninstall_flow : List Str := []
  detected_tools : List Str := []
deriving DecidableEq, Repr

/-- What `current_target` points at: a concrete target (keyed by name in the
target map) or an entry of the pattern-rule list (keyed by index).  In the
source it is an object reference; both referents live in the analysis. -/
inductive CurrentRef
  | tgtName (name : Str)
  | patIdx (i : Nat)
deriving DecidableEq, Repr

/-- The mutable scan state of `MakefileAnalyzer._parse_makefile`. -/
structure ParseState where
  analysis : MakefileAnalysis := {}
  current : Option CurrentRef := none
  in_recipe : Bool := false
  in_define : Bool := false
  define_var : Option Str := none
  cond_stack : List Bool := []
deriving Repr

def getCurrentTarget (st : ParseState) : Option MakefileTarget :=
  match st.current with
  | none => none
  | some (.tgtName n) => assocGet st.analysis.targets n
  | some (.patIdx i) => st.analysis.pattern_rules.get? i

def modifyCurrentTarget (st : ParseState) (f : MakefileTarget → MakefileTarget) : ParseState :=
  match st.current with
  | none => st
  | some (.tgtName n) =>
    match assocGet st.analysis.targets n with
    | none => st
    | some t =>
      let an2 := { st.analysis with targets := assocPut st.analysis.targets n (f t) }
      { st with analysis := an2 }
  | some (.patIdx i) =>
    match st.analysis.pattern_rules.get? i with
    | none => st
    | some t =>
      let an2 := { st.analysis with pattern_rules := st.analysis.pattern_rules.set i (f t) }
      { st with analysis := an2 }

/-! ## Line classification -/

/-- The assignment operators, in the precedence order the source checks them. -/
def assignmentOps : List Str :=
  ["::=".toList, ":=".toList, "!=".toList, "?=".toList, "+=".toList, "=".toList]

/-- Loop body of `MakefileAnalyzer._is_variable_definition`: for the plain `=`
operator only, a first colon before the first `=` makes the line look like a
target definition and the loop continues with the next operator. -/
def isVariableDefinitionGo (line : Str) : List Str → Bool
  | [] => false
  | op :: rest =>
    if isSubstr op line then
      if op = "=".toList && isSubstr ":".toList line then
        match idxOfChar ':' line, idxOfChar '=' line with
        | some cp, some ep => if cp < ep then isVariableDefinitionGo line rest else true
        | _, _ => true
      else true
    else isVariableDefinitionGo line rest

/-- `MakefileAnalyzer._is_variable_definition`. -/
def is_variable_definition (line : Str) : Bool :=
  if isPrefixL "\t".toList line then false
  else isVariableDefinitionGo line assignmentOps

/-- Python `line.split(':')[0]`: the text before the first colon. -/
def takeBeforeChar (c : Char) : Str → Str
  | [] => []
  | x :: xs => if x == c then [] else x :: takeBeforeChar c xs

/-- `MakefileAnalyzer._is_target_definition`. -/
def is_target_definition (line : Str) : Bool :=
  if !isSubstr ":".toList line then false
  else
    let pre := takeBeforeChar ':' line
    !(('=' ∈ pre) || ('?' ∈ pre) || ('+' ∈ pre) || ('!' ∈ pre))

/-- The operator-specific variable-table update performed by
`MakefileAnalyzer._parse_variable` after splitting the line. -/
def apply_assignment (vars : List (Str × Str)) (op name value : Str) :
    List (Str × Str) :=
  if op = "+=".toList then
    match assocGet vars name with
    | some old => assocPut vars name (old ++ " ".toList ++ value)
    | none => assocPut vars name value
  else if op = "?=".toList then
    match assocGet vars name with
    | some _ => vars
    | none => assocPut vars name value
  else assocPut vars name value

def parseVariableGo (vars : List (Str × Str)) (line : Str) : List Str → List (Str × Str)
  | [] => vars
  | op :: rest =>
    if isSubstr op line then
      match splitFirst op line with
      | some (lhs, rhs) => apply_assignment vars op (stripWs lhs) (stripWs rhs)
      | none => vars
    else parseVariableGo vars line rest

/-- `MakefileAnalyzer._parse_variable`: split on the first operator found (in
precedence order) and apply the operator-specific update. -/
def parse_variable (vars : List (Str × Str)) (line : Str) : List (Str × Str) :=
  parseVariableGo vars line assignmentOps

/-! ## Target lines -/

def mkTarget (name : Str) (deps : List Str) (isPat isDC : Bool) : MakefileTarget :=
  { name := name, dependencies := deps, is_pattern_rule := isPat, is_double_colon := isDC }

/-- The `for target_name in targets` loop of
`MakefileAnalyzer._parse_target_line`.  Returns the updated analysis and the
reference the source's `target` local holds after the loop; `none` means the
loop body never ran (empty target list), in which case the source's trailing
`return target` raises `UnboundLocalError`. -/
def parseTargetLoop (deps : List Str) (is_pattern is_double_colon : Bool) :
    MakefileAnalysis → List Str → MakefileAnalysis × Option CurrentRef
  | an, [] => (an, none)
  | an, name :: rest =>
    if is_pattern then
      let prules := an.pattern_rules ++ [mkTarget name deps is_pattern is_double_colon]
      let an2 := { an with pattern_rules := prules }
      match parseTargetLoop deps is_pattern is_double_colon an2 rest with
      | (an3, some ref) => (an3, some ref)
      | (an3, none) => (an3, some (.patIdx (an2.pattern_rules.length - 1)))
    else
      match assocGet an.targets name with
      | some t =>
        if is_double_colon then
          -- double-colon redefinition: extend the existing target's
          -- dependency list and return it immediately
          let t2 := { t with dependencies := t.dependencies ++ deps }
          let an2 := { an with targets := assocPut an.targets name t2 }
          (an2, some (.tgtName name))
        else
          let nt := assocPut an.targets name (mkTarget name deps is_pattern is_double_colon)
          let an2 := { an with targets := nt }
          match parseTargetLoop deps is_pattern is_double_colon an2 rest with
          | (an3, some ref) => (an3, some ref)
          | (an3, none) => (an3, some (.tgtName name))
      | none =>
        let nt := assocPut an.targets name (mkTarget name deps is_pattern is_double_colon)
        let an2 := { an with targets := nt }
        match parseTargetLoop deps is_pattern is_double_colon an2 rest with
        | (an3, some ref) => (an3, some ref)
        | (an3, none) => (an3, some (.tgtName name))

/-- `MakefileAnalyzer._parse_target_line`.  The `.error` value models the
`UnboundLocalError` the source raises at `return target` when the text before
the colon contains no target name (for example a line starting with `:`). -/
def parse_target_line (an : MakefileAnalysis) (line : Str) :
    Except Unit (MakefileAnalysis × Option CurrentRef) :=
  let is_double_colon := isSubstr "::".toList line && !isSubstr ":::".toList line
  match (if is_double_colon then splitFirst "::".toList line
         else splitFirst ":".toList line) with
  | none => .ok (an, none)
  | some (p0, p1) =>
    let target_part := stripWs p0
    let deps_part := stripWs p1
    let is_pattern := decide ('%' ∈ target_part)
    let tnames := splitWs target_part
    let deps := splitWs deps_part
    match parseTargetLoop deps is_pattern is_double_colon an tnames with
    | (an2, some ref) => .ok (an2, some ref)
    | (_, none) => .error ()

/-! ## Conditionals -/

def toggleLast : List Bool → List Bool
  | [] => []
  | [b] => [!b]
  | b :: rest => b :: toggleLast rest

/-- `MakefileAnalyzer._handle_conditional` (returns `none` when the line is
not a conditional directive). -/
def handleConditionalLine (st : ParseState) (stripped : Str) : Option ParseState :=
  if isPrefixL "ifeq".toList stripped || isPrefixL "ifneq".toList stripped ||
     isPrefixL "ifdef".toList stripped || isPrefixL "ifndef".toList stripped then
    some { st with cond_stack := st.cond_stack ++ [true] }
  else if stripped = "else".toList then
    some { st with cond_stack := toggleLast st.cond_stack }
  else if stripped = "endif".toList then
    some { st with cond_stack := st.cond_stack.dropLast }
  else none

/-- `MakefileAnalyzer._in_false_conditional`. -/
def inFalseConditional (st : ParseState) : Bool :=
  st.cond_stack.any (fun b => !b)

/-! ## Tool and script detection (the compiled regex tables) -/

def boundaryOk : Option Char → Bool
  | none => true
  | some c => !isWordChar c

/-- Case-insensitive `s.startswith(pat)` (the tool regexes are compiled with
`re.IGNORECASE`; ASCII case fold). -/
def ciPrefixL : Str → Str → Bool
  | [], _ => true
  | _ :: _, [] => false
  | p :: ps, c :: cs => p.toLower == c.toLower && ciPrefixL ps cs

/-- Search helper for `\b…` patterns: tries the matcher at every position
whose preceding character is a word boundary. -/
def boundarySearchGo (p : Str → Bool) : Option Char → Str → Bool
  | _, [] => false
  | prev, c :: rest =>
    (boundaryOk prev && p (c :: rest)) || boundarySearchGo p (some c) rest

def boundarySearch (p : Str → Bool) (s : Str) : Bool := boundarySearchGo p none s

/-- Matcher for the `\b(NAME)\s+(V1|V2|…)` tool patterns: tool name, at least
one whitespace, then one of the verbs as a prefix (the verbs contain no
whitespace, so the greedy `\s+` stops exactly at the first non-space). -/
def toolVerbMatchAt (name : Str) (verbs : List Str) (s : Str) : Bool :=
  ciPrefixL name s &&
    (match s.drop name.length with
     | [] => false
     | c :: rest =>
       isWsChar c && verbs.any (fun v => ciPrefixL v ((c :: rest).dropWhile (fun x => isWsChar x))))

/-- Matcher for `\b(ansible-playbook|ansible)`: either alternative as prefix. -/
def ansibleMatchAt (s : Str) : Bool :=
  ciPrefixL "ansible-playbook".toList s || ciPrefixL "ansible".toList s

/-- Matcher for `\b(make)\s+(-C\s+)?(\S+)`: `make`, whitespace, then a
non-space token (the optional `-C` group only affects the captured groups,
which the source never reads). -/
def makeMatchAt (s : Str) : Bool :=
  ciPrefixL "make".toList s &&
    (match s.drop 4 with
     | [] => false
     | c :: rest => isWsChar c && !((c :: rest).dropWhile (fun x => isWsChar x)).isEmpty)

/-- `MakefileAnalyzer.TOOL_PATTERNS`, in dict order. -/
def toolTable : List (Str × (Str → Bool)) :=
  [ ("helm".toList, boundarySearch (toolVerbMatchAt "helm".toList
      ["install".toList, "upgrade".toList, "delete".toList, "uninstall".toList, "template".toList])),
    ("kubectl".toList, boundarySearch (toolVerbMatchAt "kubectl".toList
      ["apply".toList, "create".toList, "delete".toList, "patch".toList])),
    ("oc".toList, boundarySearch (toolVerbMatchAt "oc".toList
      ["apply".toList, "create".toList, "delete".toList, "new-app".toList, "process".toList])),
    ("kustomize".toList, boundarySearch (toolVerbMatchAt "kustomize".toList
      ["build".toList, "edit".toList])),
    ("argocd".toList, boundarySearch (toolVerbMatchAt "argocd".toList
      ["app".toList, "repo".toList, "cluster".toList])),
    ("ansible".toList, boundarySearch ansibleMatchAt),
    ("make".toList, boundarySearch makeMatchAt) ]

def applyToolFlag (t : MakefileTarget) (name : Str) : MakefileTarget :=
  if name = "helm".toList then { t with uses_helm := true }
  else if name = "kubectl".toList then { t with uses_kubectl := true }
  else if name = "oc".toList then { t with uses_oc := true }
  else t

def toolNamesMatching (cmd : Str) : List Str :=
  toolTable.filterMap (fun nm => if nm.2 cmd then some nm.1 else none)

/-- Character class `[\w\-\.]` of the first script pattern. -/
def classChar1 (c : Char) : Bool := isWordChar c || c == '-' || c == '.'

/-- Character class `[\w\-\.\/]` of the other script patterns. -/
def classChar2 (c : Char) : Bool := classChar1 c || c == '/'

/-- End positions (relative indices) of every `.sh` occurrence in a run. -/
def shEnds : Nat → Str → List Nat
  | _, [] => []
  | i, c :: rest =>
    let tail := shEnds (i + 1) rest
    if c == '.' && isPrefixL "sh".toList rest then (i + 3) :: tail else tail

/-- Greedy group for `([class]+\.sh)` starting at `s`: longest prefix of the
maximal class-character run that ends in `.sh` and has at least one
character before the `.sh`. -/
def shGroup (cls : Char → Bool) (s : Str) : Option Str :=
  let run := s.takeWhile cls
  match ((shEnds 0 run).filter (fun k => k ≥ 4)).max? with
  | some k => some (run.take k)
  | none => none

/-- Matcher at one position for `\./([\w\-\.]+\.sh)`. -/
def scriptDotSlashAt : Str → Option Str
  | '.' :: '/' :: rest => shGroup classChar1 rest
  | _ => none

/-- Matcher at one position for `bash\s+([\w\-\.\/]+\.sh)`. -/
def scriptBashAt (s : Str) : Option Str :=
  if isPrefixL "bash".toList s then
    match s.drop 4 with
    | c :: rest =>
      if isWsChar c then shGroup classChar2 ((c :: rest).dropWhile (fun x => isWsChar x))
      else none
    | [] => none
  else none

/-- Matcher at one position for `sh\s+([\w\-\.\/]+\.sh)`. -/
def scriptShAt (s : Str) : Option Str :=
  if isPrefixL "sh".toList s then
    match s.drop 2 with
    | c :: rest =>
      if isWsChar c then shGroup classChar2 ((c :: rest).dropWhile (fun x => isWsChar x))
      else none
    | [] => none
  else none

/-- One backtracking attempt of the fourth script pattern's tail at split
point `t`: the optional `)` (greedy) and the literal `/`, then the group. -/
def p4At (s : Str) (t : Nat) : Option Str :=
  match s.drop t with
  | ')' :: '/' :: r2 => shGroup classChar2 r2
  | '/' :: r2 => shGroup classChar2 r2
  | _ => none

/-- Backtracking tail of the fourth script pattern after the variable name:
`[^\)]*\)?\/([\w\-\.\/]+\.sh)`, trying the longest non-`)` run first. -/
def p4Try (s : Str) : Nat → Option Str
  | 0 => p4At s 0
  | t + 1 =>
    match p4At s (t + 1) with
    | some g => some g
    | none => p4Try s t

/-- Matcher at one position for
`\$\(?(PWD|ROOT_DIR|SCRIPT_DIR)[^\)]*\)?\/([\w\-\.\/]+\.sh)`; extracts the
second group (the script path), which is what `match.lastindex == 2` selects. -/
def scriptDollarAt : Str → Option Str
  | '$' :: rest =>
    let body := match rest with
      | '(' :: r => r
      | r => r
    let afterName :=
      if isPrefixL "PWD".toList body then some (body.drop 3)
      else if isPrefixL "ROOT_DIR".toList body then some (body.drop 8)
      else if isPrefixL "SCRIPT_DIR".toList body then some (body.drop 10)
      else none
    match afterName with
    | some r =>
      p4Try r (r.takeWhile (fun c => c != ')')).length
    | none => none
  | _ => none

/-- Python `pattern.search`: leftmost position where the matcher succeeds. -/
def firstSomeGo (p : Str → Option Str) : Str → Option Str
  | [] => none
  | c :: rest =>
    match p (c :: rest) with
    | some g => some g
    | none => firstSomeGo p rest

/-- `MakefileAnalyzer.SCRIPT_PATTERNS`, in list order; each entry returns the
captured script name of its first match, if any. -/
def scriptMatches (cmd : Str) : List Str :=
  [firstSomeGo scriptDotSlashAt cmd, firstSomeGo scriptBashAt cmd,
   firstSomeGo scriptShAt cmd, firstSomeGo scriptDollarAt cmd].filterMap id

/-! ## The main parse loop -/

/-- Append text to an existing variable (the `define` body accumulation
`self.analysis.variables[var] += text`; the key is always present because it
is created when the `define` line is seen). -/
def appendToVar (vars : List (Str × Str)) (k add : Str) : List (Str × Str) :=
  match assocGet vars k with
  | some old => assocPut vars k (old ++ add)
  | none => assocPut vars k add

/-- The `.PHONY:` branch: mark existing targets phony, create phony
placeholders for names not seen yet. -/
def applyPhony (st : ParseState) (full_line : Str) : ParseState :=
  let afterColon := match splitFirst ":".toList full_line with
    | some (_, r) => r
    | none => []
  let names := splitWs (stripWs afterColon)
  let an2 := names.foldl (fun an name =>
    match assocGet an.targets name with
    | some t =>
      { an with targets := assocPut an.targets name ({ t with is_phony := true }) }
    | none =>
      let ph := { mkTarget name [] false false with is_phony := true }
      { an with targets := assocPut an.targets name ph })
    st.analysis
  { st with analysis := an2 }

/-- `include` / `-include` / `sinclude`: the arguments after the directive
word (Python `stripped.split(None, 1)[1].split()`, empty when there is no
second part). -/
def includeArgs (stripped : Str) : List Str :=
  splitWs ((stripped.dropWhile (fun c => !isWsChar c)).dropWhile (fun c => isWsChar c))

/-- Recipe-line processing: strip the tab, drop a leading `@`, record the
command, then run the script and tool pattern tables over it. -/
def processRecipe (st : ParseState) (full_line : Str) : ParseState :=
  let command := full_line.drop 1
  if (stripWs command).isEmpty then st
  else
    let command :=
      if isPrefixL "@".toList (stripWs command) then (stripWs command).drop 1 else command
    let st := modifyCurrentTarget st (fun t => { t with commands := t.commands ++ [command] })
    let st := modifyCurrentTarget st
      (fun t => { t with calls_scripts := t.calls_scripts ++ scriptMatches command })
    let matched := toolNamesMatching command
    let st := modifyCurrentTarget st (fun t => matched.foldl applyToolFlag t)
    { st with analysis :=
        { st.analysis with detected_tools := setUnion st.analysis.detected_tools matched } }

/-- One iteration of the `while` loop of `MakefileAnalyzer._parse_makefile`,
applied to a fully joined logical line. -/
def parseLineStep (st : ParseState) (full_line : Str) : Except Unit ParseState :=
  let stripped := stripWs full_line
  if stripped.isEmpty then .ok st
  else if isPrefixL "define ".toList stripped then
    let dv := ((splitWs stripped).get? 1).getD []
    .ok { st with in_define := true, define_var := some dv,
                  analysis := { st.analysis with
                    vars := assocPut st.analysis.vars dv [] } }
  else if st.in_define then
    if stripped = "endef".toList then
      .ok { st with in_define := false, define_var := none }
    else
      match st.define_var with
      | some dv =>
        if dv.isEmpty then .ok st
        else .ok { st with analysis := { st.analysis with
          vars := appendToVar st.analysis.vars dv (full_line ++ ['\n']) } }
      | none => .ok st
  else if isPrefixL "#".toList stripped then
    if !st.in_recipe then
      match getCurrentTarget st with
      | some t =>
        if t.description = none then
          let desc := stripWs (stripped.dropWhile (fun c => c == '#'))
          if desc.isEmpty then .ok st
          else .ok (modifyCurrentTarget st (fun x => { x with description := some desc }))
        else .ok st
      | none => .ok st
    else .ok st
  else
    match handleConditionalLine st stripped with
    | some st2 => .ok st2
    | none =>
      if inFalseConditional st then .ok st
      else if is_variable_definition full_line then
        .ok { st with analysis := { st.analysis with
          vars := parse_variable st.analysis.vars full_line } }
      else if isPrefixL "include".toList stripped || isPrefixL "-include".toList stripped ||
              isPrefixL "sinclude".toList stripped then
        .ok { st with analysis := { st.analysis with
          includes := st.analysis.includes ++ includeArgs stripped } }
      else if isPrefixL ".PHONY:".toList stripped then
        .ok (applyPhony st full_line)
      else if is_target_definition full_line && !isPrefixL "\t".toList full_line then
        match parse_target_line st.analysis full_line with
        | .error e => .error e
        | .ok (an2, some ref) =>
          .ok { st with analysis := an2, current := some ref, in_recipe := true }
        | .ok (an2, none) => .ok { st with analysis := an2 }
      else if isPrefixL "\t".toList full_line && st.current.isSome then
        .ok (processRecipe st full_line)
      else
        .ok { st with in_recipe := false }

/-- Backslash continuation joining (the inner `while` of the scan loop):
accumulate `line[:-1] + ' '` while the line ends in a backslash and more
lines remain. -/
def joinContinued (acc line : Str) : List Str → Str × List Str
  | [] => (acc ++ line, [])
  | next :: rest2 =>
    if line.getLast? == some '\\' then
      joinContinued (acc ++ line.dropLast ++ [' ']) next rest2
    else (acc ++ line, next :: rest2)

/-- The scan loop, with fuel: every iteration consumes at least one physical
line, so `lines.length` fuel always suffices. -/
def parseLinesF : Nat → ParseState → List Str → Except Unit ParseState
  | 0, st, _ => .ok st
  | _ + 1, st, [] => .ok st
  | n + 1, st, line :: rest =>
    let fr := joinContinued [] line rest
    match parseLineStep st fr.1 with
    | .ok st2 => parseLinesF n st2 fr.2
    | .error e => .error e

/-- `MakefileAnalyzer._parse_makefile`, taking the file as a list of physical
lines (newlines already removed, as `rstrip('\n')` does). -/
def parse_makefile (lines : List Str) : Except Unit MakefileAnalysis :=
  (parseLinesF lines.length {} lines).map (fun st => st.analysis)

/-! ## Deployment-target identification and flow tracing -/

def INSTALL_KEYWORDS : List Str :=
  ["install".toList, "deploy".toList, "apply".toList, "setup".toList,
   "bootstrap".toList, "init".toList]

def UNINSTALL_KEYWORDS : List Str :=
  ["uninstall".toList, "undeploy".toList, "remove".toList, "cleanup".toList,
   "destroy".toList, "delete".toList]

/-- `MakefileAnalyzer._identify_deployment_targets`. -/
def identify_deployment_targets (an : MakefileAnalysis) : MakefileAnalysis :=
  let step := fun (acc : MakefileAnalysis × List Str × List Str)
                  (e : Str × MakefileTarget) =>
    let a := acc.1
    let inst := acc.2.1
    let uninst := acc.2.2
    if e.2.is_pattern_rule then acc
    else
      let lower := toLowerStr e.1
      let p1 : MakefileAnalysis × List Str :=
        if INSTALL_KEYWORDS.any (fun k => isSubstr k lower) then
          ({ a with has_install_target := true }, inst ++ [e.1])
        else (a, inst)
      let p2 : MakefileAnalysis × List Str :=
        if UNINSTALL_KEYWORDS.any (fun k => isSubstr k lower) then
          ({ p1.1 with has_uninstall_target := true }, uninst ++ [e.1])
        else (p1.1, uninst)
      (p2.1, p1.2, p2.2)
  let r := an.targets.foldl step (an, [], [])
  let a := r.1
  let a :=
    if (assocGet a.targets "install".toList).isSome then
      { a with install_flow := ["install".toList] }
    else match r.2.1 with
      | c :: _ => { a with install_flow := [c] }
      | [] => a
  if (assocGet a.targets "uninstall".toList).isSome then
    { a with uninstall_flow := ["uninstall".toList] }
  else match r.2.2 with
    | c :: _ => { a with uninstall_flow := [c] }
    | [] => a

/-- `MakefileAnalyzer._trace_dependencies` (flow list and visited set are
threaded explicitly; the fuel bounds the recursion depth, which is at most
the number of targets because every recursive call first adds an unvisited
name). -/
def trace_dependencies (an : MakefileAnalysis) :
    Nat → Str → List Str → List Str → List Str × List Str
  | 0, _, flow, visited => (flow, visited)
  | fuel + 1, tname, flow, visited =>
    if tname ∈ visited then (flow, visited)
    else
      let visited := tname :: visited
      match assocGet an.targets tname with
      | none => (flow, visited)
      | some t =>
        t.dependencies.foldl (fun acc dep =>
          if isPrefixL "$".toList dep || decide ('%' ∈ dep) then acc
          else if dep ∉ acc.1 && (assocGet an.targets dep).isSome then
            let idx := indexOfL acc.1 tname
            trace_dependencies an fuel dep (acc.1.take idx ++ [dep] ++ acc.1.drop idx) acc.2
          else acc) (flow, visited)

/-- The keyword fallback search of `MakefileAnalyzer._trace_target_flow`. -/
def findFallback (an : MakefileAnalysis) : List Str → Option Str
  | [] => none
  | kw :: rest =>
    match an.targets.find? (fun e => isSubstr kw (toLowerStr e.1)) with
    | some e => some e.1
    | none => findFallback an rest

/-- `MakefileAnalyzer._trace_target_flow`. -/
def trace_target_flow (an : MakefileAnalysis) (target_type : Str) : MakefileAnalysis :=
  let isInstall := target_type = "install".toList
  let flow := if isInstall then an.install_flow else an.uninstall_flow
  let kws := if isInstall then INSTALL_KEYWORDS else UNINSTALL_KEYWORDS
  let flow := if flow.isEmpty then
      match findFallback an kws with
      | some tname => [tname]
      | none => []
    else flow
  match flow with
  | [] => an
  | root :: _ =>
    let r := trace_dependencies an (an.targets.length + 1) root flow []
    if isInstall then { an with install_flow := r.1 }
    else { an with uninstall_flow := r.1 }

/-- The deterministic core of `MakefileAnalyzer.analyze`: parse, identify the
deployment targets, trace the install/uninstall flows.  The variable
expansion step of `analyze` only fills the derived expansion-result fields
(the expansion engine is modelled separately below) and the verbose script
analysis only logs. -/
def analyze_core (lines : List Str) : Except Unit MakefileAnalysis :=
  match parse_makefile lines with
  | .error e => .error e
  | .ok an =>
    let an := identify_deployment_targets an
    let an := if an.has_install_target then trace_target_flow an "install".toList else an
    let an := if an.has_uninstall_target then trace_target_flow an "uninstall".toList else an
    .ok an

/-- Analysis extracted from an `analyze_core` result (the empty analysis when
parsing faulted); used to state concrete facts about successful runs. -/
def analysisOf (r : Except Unit MakefileAnalysis) : MakefileAnalysis :=
  match r with
  | .ok an => an
  | .error _ => {}

/-! ## Variable expansion engine (`variable_expander.py`) -/

/-- `VariableExpansion`: results of variable expansion.  The four sets are
modelled as insertion-ordered duplicate-free lists. -/
structure VariableExpansion where
  original : Str
  expanded : Str
  variables_used : List Str := []
  functions_used : List Str := []
  automatic_vars_used : List Str := []
  unexpanded_vars : List Str := []
deriving DecidableEq, Repr

/-- The four use-sets of the result object while it is being filled in. -/
structure UseSets where
  variables_used : List Str := []
  functions_used : List Str := []
  automatic_vars_used : List Str := []
  unexpanded_vars : List Str := []
deriving DecidableEq, Repr

/-- The state of one `VariableExpander` instance.  `env` is the process
environment snapshot (`os.environ`), `curdir` the base path, `globFn` the
filesystem view used by `$(wildcard …)` and `resolveFn` the one used by
`$(abspath …)`; all are engine parameters because the source reads them from
the outside world. -/
structure ExpState where
  vars : List (Str × Str)
  env : Str → Option Str
  curdir : Str
  globFn : Str → List Str
  resolveFn : Str → Str
  cache : List (Str × VariableExpansion) := []
  stack : List Str := []

def max_recursion_depth : Nat := 50

/-- `VariableExpander._apply_conditional_defaults`: the hard-coded defaults
injected at construction for names the Makefile did not define. -/
def conditionalDefaults : List (Str × Str) :=
  [("METRIC_UI_CHART_PATH".toList, "metric-ui".toList),
   ("PROMETHEUS_CHART_PATH".toList, "prometheus".toList),
   ("METRIC_UI_RELEASE_NAME".toList, "metric-ui".toList),
   ("PROMETHEUS_RELEASE_NAME".toList, "prometheus".toList),
   ("REGION".toList, "us-east-1".toList)]

/-- One step of the defaults loop: `if var_name not in self.variables:
self.variables[var_name] = default_value`. -/
def defaultsStep (vs : List (Str × Str)) (dv : Str × Str) : List (Str × Str) :=
  match assocGet vs dv.1 with
  | some _ => vs
  | none => assocPut vs dv.1 dv.2

def apply_conditional_defaults (vars : List (Str × Str)) : List (Str × Str) :=
  conditionalDefaults.foldl defaultsStep vars

/-- `VariableExpander.__init__`. -/
def mk_expander (vars : List (Str × Str)) (env : Str → Option Str) (curdir : Str)
    (globFn : Str → List Str) (resolveFn : Str → Str) : ExpState :=
  { vars := apply_conditional_defaults vars, env := env, curdir := curdir,
    globFn := globFn, resolveFn := resolveFn }

/-- The memoization key `f"{text}:{target_name}:{':'.join(dependencies or [])}"`
(`None` formats as the four letters `None`). -/
def cacheKey (text : Str) (tgt : Option Str) (deps : List Str) : Str :=
  text ++ ":".toList ++ (match tgt with | some t => t | none => "None".toList) ++
    ":".toList ++ joinSep ':' deps

/-- The keys of `VariableExpander.AUTOMATIC_VARIABLES`. -/
def automaticVariableKeys : List Str :=
  (["$@", "$<", "$^", "$?", "$*", "$+", "$|", "$%", "$(@D)", "$(@F)",
    "$(<D)", "$(<F)", "$(^D)", "$(^F)", "$(?D)", "$(?F)", "$(*D)", "$(*F)"]
   : List String).map String.toList

/-- Names treated by `_get_variable_value` as intentionally undefined. -/
def intentionallyUndefined : List Str :=
  (["LLM", "SAFETY", "SAFETY_TOLERATION", "LLM_TOLERATION", "EXTRA_HELM_ARGS"]
   : List String).map String.toList

/-- The `${NAME}` marker produced for unresolved names. -/
def wrapUnexpanded (name : Str) : Str :=
  '$' :: '\x7b' :: (name ++ ['\x7d'])

/-! ### Path helpers (`pathlib` operations used by the engine)

These model `PurePosixPath` `.name` / `.parent` / `.stem` / `.suffix` for the
plain relative or absolute paths the analyzer feeds them (no trailing-slash
or dot-component normalisation, which those inputs do not contain). -/

def rfindChar (c : Char) (s : Str) : Option Nat :=
  match idxOfChar c s.reverse with
  | some j => some (s.length - 1 - j)
  | none => none

def pyName (p : Str) : Str :=
  (p.reverse.takeWhile (fun c => c != '/')).reverse

def pyParent (p : Str) : Str :=
  if !isSubstr "/".toList p then ".".toList
  else
    let pre := ((p.reverse.dropWhile (fun c => c != '/')).drop 1).reverse
    if pre.isEmpty then "/".toList else pre

def pySuffix (p : Str) : Str :=
  let nm := pyName p
  match rfindChar '.' nm with
  | some i => if 0 < i ∧ i < nm.length - 1 then nm.drop i else []
  | none => []

def pyStem (p : Str) : Str :=
  let nm := pyName p
  match rfindChar '.' nm with
  | some i => if 0 < i ∧ i < nm.length - 1 then nm.take i else nm
  | none => nm

/-- `VariableExpander._get_stem`. -/
def get_stem (tn : Str) : Str := pyStem tn

/-- `VariableExpander._expand_automatic_variables`: the ordered replacement
table, applied with `str.replace`; each token present in the text is recorded.
(`$(@D)` is `str(Path(tn).parent)`, which is `.` exactly when the source's
redundant `!= Path('.')` guard would substitute `'.'` itself.) -/
def expandAutomaticVariables (text tn : Str) (deps : List Str) : Str × List Str :=
  let base : List (Str × Str) := [
    ("$@".toList, tn),
    ("$<".toList, (deps.head?).getD []),
    ("$^".toList, joinSep ' ' deps),
    ("$?".toList, joinSep ' ' deps),
    ("$*".toList, get_stem tn),
    ("$+".toList, joinSep ' ' deps),
    ("$|".toList, []),
    ("$%".toList, []) ]
  let base := if !tn.isEmpty then
      base ++ [("$(@D)".toList, pyParent tn), ("$(@F)".toList, pyName tn)]
    else base
  let base := match deps with
    | d :: _ => base ++ [("$(<D)".toList, pyParent d), ("$(<F)".toList, pyName d)]
    | [] => base
  base.foldl (fun acc pv =>
    if isSubstr pv.1 acc.1 then (replaceAll pv.1 pv.2 acc.1, acc.2 ++ [pv.1])
    else acc) (text, [])

/-! ### Function-call patterns (`FUNCTION_PATTERNS`) -/

/-- The argument shapes of the function regexes: `one` is `\s+([^)]+)\)`,
`two` is `\s+([^,]+),\s*([^)]+)\)`, `three` is
`\s+([^,]+),\s*([^,]+),\s*([^)]+)\)`, `condShape` is the `if` pattern with
`*`-groups, `callShape` is the `call` pattern with an optional second group. -/
inductive ArgShape
  | one | two | three | condShape | callShape
deriving DecidableEq, Repr

/-- `FUNCTION_PATTERNS` in dict order, each name with its argument shape. -/
def funcTable : List (Str × ArgShape) :=
  [("shell".toList, .one), ("wildcard".toList, .one), ("foreach".toList, .three),
   ("if".toList, .condShape), ("or".toList, .one), ("and".toList, .one),
   ("strip".toList, .one), ("findstring".toList, .two), ("filter".toList, .two),
   ("filter-out".toList, .two), ("sort".toList, .one), ("word".toList, .two),
   ("wordlist".toList, .three), ("words".toList, .one), ("firstword".toList, .one),
   ("lastword".toList, .one), ("dir".toList, .one), ("notdir".toList, .one),
   ("suffix".toList, .one), ("basename".toList, .one), ("addsuffix".toList, .two),
   ("addprefix".toList, .two), ("join".toList, .two), ("subst".toList, .three),
   ("patsubst".toList, .three), ("call".toList, .callShape), ("value".toList, .one),
   ("eval".toList, .one), ("origin".toList, .one), ("flavor".toList, .one),
   ("error".toList, .one), ("warning".toList, .one), ("info".toList, .one),
   ("abspath".toList, .one), ("realpath".toList, .one)]

/-- Greedy `\s+([^t]+)` followed by the terminator `t`: the suffix must begin
with whitespace and contain `t` with at least two characters before it; the
greedy `\s+` backtracks just enough to leave the group non-empty.  Returns
the group and the number of characters consumed including the terminator. -/
def plusArg (t : Char) (u : Str) : Option (Str × Nat) :=
  let region := u.takeWhile (fun c => c != t)
  if region.length < u.length && region.length ≥ 2 &&
     (match u with | c :: _ => isWsChar c | [] => false) then
    let w := min (region.takeWhile isWsChar).length (region.length - 1)
    some (region.drop w, region.length + 1)
  else none

/-- Greedy `\s*([^t]+)` followed by the terminator `t`. -/
def starArg (t : Char) (u : Str) : Option (Str × Nat) :=
  let region := u.takeWhile (fun c => c != t)
  if region.length < u.length && region.length ≥ 1 then
    let w := min (region.takeWhile isWsChar).length (region.length - 1)
    some (region.drop w, region.length + 1)
  else none

/-- Greedy `\s*([^t]*)` followed by the terminator `t` (group may be empty). -/
def starArgOpt (t : Char) (u : Str) : Option (Str × Nat) :=
  let region := u.takeWhile (fun c => c != t)
  if region.length < u.length then
    some (region.dropWhile isWsChar, region.length + 1)
  else none

/-- Match one argument shape on the text following the function name;
returns the captured groups (missing optional groups become the empty
string, as the source's `None`-to-`''` filtering does) and the consumed
length including the closing parenthesis. -/
def shapeMatch : ArgShape → Str → Option (List Str × Nat)
  | .one, u =>
    (plusArg ')' u).map (fun gn => ([gn.1], gn.2))
  | .two, u =>
    match plusArg ',' u with
    | some (g1, n1) =>
      match starArg ')' (u.drop n1) with
      | some (g2, n2) => some ([g1, g2], n1 + n2)
      | none => none
    | none => none
  | .three, u =>
    match plusArg ',' u with
    | some (g1, n1) =>
      match starArg ',' (u.drop n1) with
      | some (g2, n2) =>
        match starArg ')' (u.drop (n1 + n2)) with
        | some (g3, n3) => some ([g1, g2, g3], n1 + n2 + n3)
        | none => none
      | none => none
    | none => none
  | .condShape, u =>
    match plusArg ',' u with
    | some (g1, n1) =>
      match starArgOpt ',' (u.drop n1) with
      | some (g2, n2) =>
        match starArgOpt ')' (u.drop (n1 + n2)) with
        | some (g3, n3) => some ([g1, g2, g3], n1 + n2 + n3)
        | none => none
      | none => none
    | none => none
  | .callShape, u =>
    match idxOfChar ')' u, idxOfChar ',' u with
    | some m0, some c0 =>
      if c0 < m0 then
        let region := u.take c0
        if region.length ≥ 2 && (match u with | c :: _ => isWsChar c | [] => false) then
          let w := min (region.takeWhile isWsChar).length (region.length - 1)
          match starArgOpt ')' (u.drop (c0 + 1)) with
          | some (g2, n2) => some ([region.drop w, g2], c0 + 1 + n2)
          | none => none
        else none
      else (plusArg ')' u).map (fun gn => ([gn.1, []], gn.2))
    | some _, none => (plusArg ')' u).map (fun gn => ([gn.1, []], gn.2))
    | none, _ => none

/-- Matcher at one position for a function pattern `\$\(NAME<shape>` (the
patterns are compiled with `re.IGNORECASE`, so the name is matched
case-insensitively). -/
def funcMatchAt (fname : Str) (shape : ArgShape) (s : Str) : Option (Nat × List Str) :=
  match s with
  | '$' :: '(' :: r =>
    if ciPrefixL fname r then
      match shapeMatch shape (r.drop fname.length) with
      | some (args, n) => some (2 + fname.length + n, args)
      | none => none
    else none
  | _ => none

/-- A regex match with absolute positions. -/
structure FMatch where
  start : Nat
  stop : Nat
  args : List Str
deriving DecidableEq, Repr

/-- `finditer` for one function pattern: non-overlapping matches, left to
right.  Every match consumes at least one character, so `|s| + 1` fuel
suffices. -/
def funcScanGo (fname : Str) (shape : ArgShape) : Nat → Nat → Str → List FMatch
  | 0, _, _ => []
  | _ + 1, _, [] => []
  | fuel + 1, pos, c :: rest =>
    match funcMatchAt fname shape (c :: rest) with
    | some (len, args) =>
      ⟨pos, pos + len, args⟩ :: funcScanGo fname shape fuel (pos + len) ((c :: rest).drop len)
    | none => funcScanGo fname shape fuel (pos + 1) rest

def funcScan (fname : Str) (shape : ArgShape) (s : Str) : List FMatch :=
  funcScanGo fname shape (s.length + 1) 0 s

/-- Splice a replacement over the span `[start, stop)` of `text`. -/
def spliceAt (text : Str) (start stop : Nat) (repl : Str) : Str :=
  text.take start ++ repl ++ text.drop stop

/-! ### Function evaluation (`_evaluate_function`) -/

def safe_args_string (args : List Str) : Str := joinSep ':' args

def natToStr (n : Nat) : Str := (toString n).toList

def strLtB : Str → Str → Bool
  | [], [] => false
  | [], _ :: _ => true
  | _ :: _, [] => false
  | a :: as_, b :: bs =>
    if a < b then true else if b < a then false else strLtB as_ bs

def insertSorted (x : Str) : List Str → List Str
  | [] => [x]
  | y :: rest => if strLtB x y then x :: y :: rest else y :: insertSorted x rest

/-- Python `sorted` over strings (code-point lexicographic order). -/
def sortStrs (xs : List Str) : List Str := xs.foldr insertSorted []

def splitAllCharAux (c : Char) : Str → Str → List Str
  | acc, [] => [acc.reverse]
  | acc, x :: rest =>
    if x == c then acc.reverse :: splitAllCharAux c [] rest
    else splitAllCharAux c (x :: acc) rest

/-- Python `s.split(c)` for a one-character separator. -/
def splitAllChar (c : Char) (s : Str) : List Str := splitAllCharAux c [] s

def intercalateStr (sep : Str) : List Str → Str
  | [] => []
  | [x] => x
  | x :: y :: rest => x ++ sep ++ intercalateStr sep (y :: rest)

/-- Match a literal regex segment in which `.` is the any-character
metacharacter (the source builds the pattern with `pattern.replace('%',
'(.*)')` and no escaping); returns the remaining suffix. -/
def litSegRest : Str → Str → Option Str
  | [], u => some u
  | _ :: _, [] => none
  | p :: ps, c :: cs =>
    if p == '.' then (if c == '\n' then none else litSegRest ps cs)
    else if p == c then litSegRest ps cs
    else none

/-- Backtracking matcher for the tail `(.*) seg …` of the derived pattern:
tries the current gap length `g` and backtracks downwards (greedy `(.*)`;
`.` does not match a newline).  Returns the consumed length and the gap
length chosen at this level. -/
def segTry : Nat → List Str → Str → Nat → Option (Nat × Nat)
  | 0, _, _, _ => none
  | _ + 1, [], _, _ => some (0, 0)
  | fuel + 1, seg :: more, u, g =>
    let attempt :=
      match litSegRest seg (u.drop g) with
      | some rest =>
        match more with
        | [] => some (g + seg.length, g)
        | _ :: _ =>
          let gmax2 := (rest.takeWhile (fun c => c != '\n')).length
          match segTry fuel more rest gmax2 with
          | some (n, _) => some (g + seg.length + n, g)
          | none => none
      | none => none
    match attempt with
    | some r => some r
    | none =>
      match g with
      | 0 => none
      | g' + 1 => segTry fuel (seg :: more) u g'

/-- Match the derived `patsubst` regex at one position; returns the match
length and the text captured by the first `(.*)` group. -/
def patMatchAt (segs : List Str) (u : Str) : Option (Nat × Str) :=
  match segs with
  | [] => none
  | seg0 :: more =>
    match litSegRest seg0 u with
    | none => none
    | some rest =>
      match more with
      | [] => some (seg0.length, [])
      | _ :: _ =>
        let gmax := (rest.takeWhile (fun c => c != '\n')).length
        match segTry ((rest.length + 2) * (more.length + 2)) more rest gmax with
        | some (n, g1) => some (seg0.length + n, rest.take g1)
        | none => none

/-- `re.sub` over the derived pattern: replace all non-overlapping matches
left to right (an empty match substitutes and then copies one character). -/
def reSubGo (segs rsegs : List Str) : Nat → Str → Str
  | 0, u => u
  | _ + 1, [] => []
  | fuel + 1, c :: rest =>
    match patMatchAt segs (c :: rest) with
    | some (len, g1) =>
      let repl := intercalateStr g1 rsegs
      if len = 0 then repl ++ c :: reSubGo segs rsegs fuel rest
      else repl ++ reSubGo segs rsegs fuel ((c :: rest).drop len)
    | none => c :: reSubGo segs rsegs fuel rest

/-- The `patsubst` evaluator: `re.sub(pattern.replace('%','(.*)'),
replacement.replace('%','\\1'), text)` when the pattern contains `%`,
plain `str.replace` otherwise. -/
def patsubstEval (p r t : Str) : Str :=
  if '%' ∈ p then
    reSubGo (splitAllChar '%' p) (splitAllChar '%' r) (t.length + 1) t
  else replaceAll p r t

/-- `VariableExpander._evaluate_function`.  `$(shell …)` is never executed:
its branch only builds the placeholder string.  `wildcard` and `abspath`
read the filesystem through the engine-state functions. -/
def evaluate_function (st : ExpState) (fname : Str) (args : List Str) : Str :=
  let arg0 := ((args.get? 0).getD [])
  if fname = "shell".toList then
    "<shell:".toList ++ stripWs arg0 ++ ">".toList
  else if fname = "wildcard".toList then
    joinSep ' ' (st.globFn (stripWs arg0))
  else if fname = "dir".toList then
    pyParent (stripWs arg0) ++ "/".toList
  else if fname = "notdir".toList then pyName (stripWs arg0)
  else if fname = "basename".toList then pyStem (stripWs arg0)
  else if fname = "suffix".toList then pySuffix (stripWs arg0)
  else if fname = "abspath".toList then st.resolveFn (stripWs arg0)
  else if fname = "strip".toList then stripWs arg0
  else if fname = "subst".toList then
    if args.length ≥ 3 then
      replaceAll ((args.get? 0).getD []) ((args.get? 1).getD []) ((args.get? 2).getD [])
    else "<subst:".toList ++ safe_args_string args ++ ">".toList
  else if fname = "patsubst".toList then
    if args.length ≥ 3 then
      patsubstEval arg0 ((args.get? 1).getD []) ((args.get? 2).getD [])
    else "<patsubst:".toList ++ safe_args_string args ++ ">".toList
  else if fname = "sort".toList then
    joinSep ' ' (sortStrs (setUnion [] (splitWs arg0)))
  else if fname = "words".toList then natToStr (splitWs arg0).length
  else if fname = "firstword".toList then ((splitWs arg0).head?).getD []
  else if fname = "lastword".toList then ((splitWs arg0).getLast?).getD []
  else if fname = "if".toList then
    if (stripWs arg0).isEmpty then ((args.get? 2).getD []) else ((args.get? 1).getD [])
  else
    "<".toList ++ fname ++ ":".toList ++ safe_args_string args ++ ">".toList

/-- Replacement loop for one function pattern's matches, processed from the
end (`reversed(matches)`); the function name is added to the used set for
every match, before evaluation. -/
def applyFuncMatches (st : ExpState) (fname : Str) :
    Str → List Str → List FMatch → Str × List Str
  | text, fns, [] => (text, fns)
  | text, fns, m :: rest =>
    let fns := setAdd fns fname
    let repl := evaluate_function st fname m.args
    applyFuncMatches st fname (spliceAt text m.start m.stop repl) fns rest

/-- One pattern of the `_expand_function_calls` loop: find the pattern's
matches in the current text and replace them from the end. -/
def funcStep (st : ExpState) (acc : Str × List Str) (nmsh : Str × ArgShape) :
    Str × List Str :=
  applyFuncMatches st nmsh.1 acc.1 acc.2 ((funcScan nmsh.1 nmsh.2 acc.1).reverse)

/-- `VariableExpander._expand_function_calls`: every pattern of the table,
in order; per pattern, all matches replaced from the end. -/
def expandFunctionCalls (st : ExpState) (text : Str) : Str × List Str :=
  funcTable.foldl (funcStep st) (text, [])

/-! ### Variable references -/

/-- A variable-reference match: positions, whole match text, captured name. -/
structure RxMatch where
  start : Nat
  stop : Nat
  g0 : Str
  name : Str
deriving DecidableEq, Repr

/-- Matcher at one position for the variable pattern
`\$\(([^)]+)\)|\$\{([^}]+)\}|\$([a-zA-Z_][a-zA-Z0-9_]*|\$|[@<^?*+|%])`,
trying the alternatives in order; returns length, whole match and name. -/
def varMatchAt (s : Str) : Option (Nat × Str × Str) :=
  match s with
  | '$' :: rest =>
    match rest with
    | '(' :: r =>
      let content := r.takeWhile (fun c => c != ')')
      if !content.isEmpty && content.length < r.length then
        some (content.length + 3, '$' :: '(' :: (content ++ [')']), content)
      else none
    | c :: r =>
      if c == '\x7b' then
        let content := r.takeWhile (fun c2 => c2 != '\x7d')
        if !content.isEmpty && content.length < r.length then
          some (content.length + 3, '$' :: c :: (content ++ ['\x7d']), content)
        else none
      else if c.isAlpha || c == '_' then
        let run := (c :: r).takeWhile (fun c2 => c2.isAlphanum || c2 == '_')
        some (run.length + 1, '$' :: run, run)
      else if c == '$' || c ∈ ['@', '<', '^', '?', '*', '+', '|', '%'] then
        some (2, ['$', c], [c])
      else none
    | [] => none
  | _ => none

def varScanGo : Nat → Nat → Str → List RxMatch
  | 0, _, _ => []
  | _ + 1, _, [] => []
  | fuel + 1, pos, c :: rest =>
    match varMatchAt (c :: rest) with
    | some (len, g0, nm) =>
      ⟨pos, pos + len, g0, nm⟩ :: varScanGo fuel (pos + len) ((c :: rest).drop len)
    | none => varScanGo fuel (pos + 1) rest

/-- `finditer` for the variable pattern. -/
def varScan (s : Str) : List RxMatch := varScanGo (s.length + 1) 0 s

def removeFirst (x : Str) : List Str → List Str
  | [] => []
  | y :: rest => if y = x then rest else y :: removeFirst x rest

def mergeSets (sets : UseSets) (e : VariableExpansion) : UseSets :=
  { variables_used := setUnion sets.variables_used e.variables_used,
    functions_used := setUnion sets.functions_used e.functions_used,
    automatic_vars_used := setUnion sets.automatic_vars_used e.automatic_vars_used,
    unexpanded_vars := setUnion sets.unexpanded_vars e.unexpanded_vars }

/-- `VariableExpander._get_variable_value`.  `expandRec` is the engine's
`expand` at one unit less fuel (called with target `None` and no
dependencies), used for recursive expansion of stored values containing `$`.
The lookup precedence is: recursion-stack guard, Make variable table,
environment, built-in names, intentionally-undefined allow-list, and the
`${NAME}` marker otherwise. -/
def get_variable_value (expandRec : ExpState → Str → VariableExpansion × ExpState)
    (st : ExpState) (var_name : Str) (sets : UseSets) :
    Str × UseSets × ExpState :=
  if var_name = "$".toList then ("$".toList, sets, st)
  else if var_name ∈ st.stack then
    (wrapUnexpanded var_name,
     { sets with unexpanded_vars := setAdd sets.unexpanded_vars var_name }, st)
  else
    let sets := { sets with variables_used := setAdd sets.variables_used var_name }
    match assocGet st.vars var_name with
    | some value =>
      let st2 := { st with stack := var_name :: st.stack }
      if '$' ∈ value then
        let r := expandRec st2 value
        (r.1.expanded, mergeSets sets r.1,
         { r.2 with stack := removeFirst var_name r.2.stack })
      else
        (value, sets, { st2 with stack := removeFirst var_name st2.stack })
    | none =>
      match st.env var_name with
      | some v => (v, sets, st)
      | none =>
        if var_name = "MAKE".toList then ("make".toList, sets, st)
        else if var_name = "MAKEFILE_LIST".toList then ("Makefile".toList, sets, st)
        else if var_name = "CURDIR".toList then (st.curdir, sets, st)
        else if var_name = ".DEFAULT_GOAL".toList then ("default".toList, sets, st)
        else if var_name ∈ intentionallyUndefined then (wrapUnexpanded var_name, sets, st)
        else
          (wrapUnexpanded var_name,
           { sets with unexpanded_vars := setAdd sets.unexpanded_vars var_name }, st)

/-- The result returned when the recursion-depth cap is exceeded (and the
degenerate fuel-0 value of the embedding, which no theorem relies on). -/
def depthResult (text : Str) : VariableExpansion :=
  { original := text, expanded := text, unexpanded_vars := [text] }

/-- The three passes of `VariableExpander.expand` (automatic variables,
function calls, variable references) and the assembly of the result object;
`er` is the engine's `expand` at one unit less fuel (target `None`, no
dependencies), used by `_get_variable_value` for nested expansion. -/
def expandPasses (er : ExpState → Str → VariableExpansion × ExpState) (st : ExpState)
    (text : Str) (tgt : Option Str) (deps : List Str) : VariableExpansion × ExpState :=
  let p1 : Str × List Str :=
    match tgt with
    | some tn => if tn.isEmpty then (text, []) else expandAutomaticVariables text tn deps
    | none => (text, [])
  let p2 := expandFunctionCalls st p1.1
  let sets0 : UseSets := { functions_used := p2.2, automatic_vars_used := p1.2 }
  let p3 := ((varScan p2.1).reverse).foldl
    (fun (acc : Str × UseSets × ExpState) m =>
      if m.name.isEmpty then acc
      else if m.g0 ∈ automaticVariableKeys then acc
      else
        match get_variable_value er acc.2.2 m.name acc.2.1 with
        | (v, sets, st2) => (spliceAt acc.1 m.start m.stop v, sets, st2))
    (p2.1, sets0, st)
  match p3 with
  | (expanded, sets, st3) =>
    ({ original := text, expanded := expanded,
       variables_used := sets.variables_used,
       functions_used := sets.functions_used,
       automatic_vars_used := sets.automatic_vars_used,
       unexpanded_vars := sets.unexpanded_vars }, st3)

/-- The non-memoized branch of `expand`: run the passes and store the result
in the cache under the call's key. -/
def expandCore (er : ExpState → Str → VariableExpansion × ExpState) (st : ExpState)
    (text : Str) (tgt : Option Str) (deps : List Str) (key : Str) :
    VariableExpansion × ExpState :=
  match expandPasses er st text tgt deps with
  | (result, st3) => (result, { st3 with cache := assocPut st3.cache key result })

/-- `VariableExpander.expand`: memoization lookup, depth-cap check, then the
three passes and the final cache insertion.  The fuel bounds the nesting of
recursive variable expansion; the source bounds it with the recursion stack
and depth cap, and any fuel larger than the actual nesting depth computes
the same result. -/
def expandF : Nat → ExpState → Str → Option Str → List Str → VariableExpansion × ExpState
  | 0, st, text, _, _ => (depthResult text, st)
  | fuel + 1, st, text, tgt, deps =>
    match assocGet st.cache (cacheKey text tgt deps) with
    | some r => (r, st)
    | none =>
      if st.stack.length > max_recursion_depth then (depthResult text, st)
      else
        expandCore (fun st2 t2 => expandF fuel st2 t2 none []) st text tgt deps
          (cacheKey text tgt deps)

set_option maxRecDepth 200000

set_option maxHeartbeats 2000000

/-! ## Shared lemmas -/

theorem assocGet_assocPut_self {α : Type} (d : List (Str × α)) (k : Str) (v : α) :
    assocGet (assocPut d k v) k = some v := by
  induction d with
  | nil => simp [assocPut, assocGet]
  | cons hd tl ih =>
    by_cases h : hd.1 = k
    · cases hd; simp_all [assocPut, assocGet]
    · cases hd; simp_all [assocPut, assocGet]

theorem assocGet_assocPut_ne {α : Type} (d : List (Str × α)) (k k' : Str) (v : α)
    (h : k ≠ k') : assocGet (assocPut d k v) k' = assocGet d k' := by
  induction d with
  | nil => simp [assocPut, assocGet, h]
  | cons hd tl ih =>
    by_cases h2 : hd.1 = k
    · cases hd; simp_all [assocPut, assocGet]
    · cases hd; simp_all [assocPut, assocGet]

/-- Concrete engine parameters used by closed statements: empty environment,
empty filesystem view, identity resolver. -/
def envEmpty : Str → Option Str := fun _ => none

def globEmpty : Str → List Str := fun _ => []

def resolveId : Str → Str := fun s => s

/-- A fresh engine over an empty Makefile variable table. -/
def freshEngine : ExpState := mk_expander [] envEmpty [] globEmpty resolveId

/-! ## C1: end-to-end analysis of the six-line Makefile -/

def c1_makefile : List Str :=
  ["VERSION := 1.0".toList,
   "install: check".toList,
   "\thelm install app --version $(VERSION)".toList,
   "check:".toList,
   "\t@echo checking".toList,
   ".PHONY: install check".toList]

/-- C1: parsing the six-line Makefile and running the full analysis yields
exactly: variables `{VERSION ↦ 1.0}`; an `install` target with dependencies
`[check]`, the single recipe command `helm install app --version $(VERSION)`,
phony and using helm; a `check` target with no dependencies and the single
command `echo checking` (leading `@` stripped), phony; `has_install_target`;
install flow `[check, install]`; and expanding install's command with target
context `install` over the analyzed variable table (established equal to
`{VERSION ↦ 1.0}` by the second conjunct) produces
`helm install app --version 1.0`.  The environment snapshot is irrelevant
here because `VERSION` is defined in the Make table, which is consulted
first; the empty snapshot is used. -/
theorem c1_end_to_end :
    (analyze_core c1_makefile).toOption.isSome = true ∧
    (analysisOf (analyze_core c1_makefile)).vars = [("VERSION".toList, "1.0".toList)] ∧
    assocGet (analysisOf (analyze_core c1_makefile)).targets "install".toList =
      some { name := "install".toList, dependencies := ["check".toList],
             commands := ["helm install app --version $(VERSION)".toList],
             is_phony := true, uses_helm := true } ∧
    assocGet (analysisOf (analyze_core c1_makefile)).targets "check".toList =
      some { name := "check".toList, commands := ["echo checking".toList],
             is_phony := true } ∧
    (analysisOf (analyze_core c1_makefile)).has_install_target = true ∧
    (analysisOf (analyze_core c1_makefile)).install_flow =
      ["check".toList, "install".toList] ∧
    (expandF 100
        (mk_expander [("VERSION".toList, "1.0".toList)] envEmpty [] globEmpty resolveId)
        "helm install app --version $(VERSION)".toList (some "install".toList) []).1.expanded =
      "helm install app --version 1.0".toList := by decide

/-! ## C2: the parser is not total (code bug) -/

/-- C2 (code bug): a target-definition line whose part before the colon is
empty makes `_parse_target_line` run its loop zero times and then execute
`return target` with `target` unbound — an unhandled `UnboundLocalError`,
modelled by the `.error` value.  The claim (and the spec's no-fatal-error
guarantee) says such lines must be handled without a fault. -/
theorem c2_empty_target_part_faults :
    parse_makefile [": check".toList] = .error () := rfl

/-! ## C3: assignment-operator semantics -/

/-- C3: for every variable table, name and value, `=`, `:=` and `::=`
overwrite unconditionally; `+=` appends the new text after exactly one
space (or assigns it plainly when the name was undefined); `?=` assigns
only when the name is undefined and never overwrites. -/
theorem c3_assignment_operators (vars : List (Str × Str)) (name value : Str) :
    assocGet (apply_assignment vars "=".toList name value) name = some value ∧
    assocGet (apply_assignment vars ":=".toList name value) name = some value ∧
    assocGet (apply_assignment vars "::=".toList name value) name = some value ∧
    assocGet (apply_assignment vars "+=".toList name value) name =
      some (match assocGet vars name with
            | some old => old ++ " ".toList ++ value
            | none => value) ∧
    assocGet (apply_assignment vars "?=".toList name value) name =
      some (match assocGet vars name with
            | some old => old
            | none => value) := by
  refine ⟨?_, ?_, ?_, ?_, ?_⟩
  · show assocGet (assocPut vars name value) name = some value
    exact assocGet_assocPut_self vars name value
  · show assocGet (assocPut vars name value) name = some value
    exact assocGet_assocPut_self vars name value
  · show assocGet (assocPut vars name value) name = some value
    exact assocGet_assocPut_self vars name value
  · show assocGet (match assocGet vars name with
        | some old => assocPut vars name (old ++ " ".toList ++ value)
        | none => assocPut vars name value) name = _
    cases h : assocGet vars name with
    | some old => simp [assocGet_assocPut_self]
    | none => simp [assocGet_assocPut_self]
  · show assocGet (match assocGet vars name with
        | some _ => vars
        | none => assocPut vars name value) name = _
    cases h : assocGet vars name with
    | some old => simp [h]
    | none => simp [assocGet_assocPut_self]

/-! ## C4: circular variable references terminate and are reported -/

/-- C4: with `A = $(B)` and `B = $(A)`, expanding `$(A)` terminates (the
recursion-stack guard fires well inside the depth cap of 50), leaves the
circular name as the marker `${A}` in the output, records it in the
unexpanded set, and unwinds the recursion stack completely.  (The
environment is never consulted: both names are defined in the Make table.) -/
theorem c4_circular_reference :
    (expandF 100 (mk_expander [("A".toList, "$(B)".toList), ("B".toList, "$(A)".toList)]
        envEmpty [] globEmpty resolveId) "$(A)".toList none []).1.expanded =
      "$\x7bA\x7d".toList ∧
    (expandF 100 (mk_expander [("A".toList, "$(B)".toList), ("B".toList, "$(A)".toList)]
        envEmpty [] globEmpty resolveId) "$(A)".toList none []).1.unexpanded_vars =
      ["A".toList] ∧
    (expandF 100 (mk_expander [("A".toList, "$(B)".toList), ("B".toList, "$(A)".toList)]
        envEmpty [] globEmpty resolveId) "$(A)".toList none []).2.stack = [] := by decide

/-! ## C6: target descriptions from comments (code bug) -/

def c6_makefile : List Str :=
  ["install: check".toList, "# Install the app".toList, "\thelm install app".toList]

/-- C6 (code bug): the first comment immediately after a target-definition
line and before any recipe line does NOT become the target's description:
the parser sets `in_recipe = True` on the target line itself, so the
description gate `not in_recipe` can never hold there and the description
stays `None`. -/
theorem c6_description_not_set :
    (parse_makefile c6_makefile).toOption.isSome = true ∧
    (assocGet (analysisOf (parse_makefile c6_makefile)).targets "install".toList).isSome
      = true ∧
    (assocGet (analysisOf (parse_makefile c6_makefile)).targets "install".toList).bind
      (fun t => t.description) = none := by
  decide

/-! ## C9: install-flow tracing on the three-target graph -/

def c9_analysis : MakefileAnalysis :=
  { targets :=
      [("install".toList, mkTarget "install".toList ["check".toList, "deploy".toList] false false),
       ("deploy".toList, mkTarget "deploy".toList ["check".toList] false false),
       ("check".toList, mkTarget "check".toList [] false false)] }

/-- C9: for the graph `install → [check, deploy]`, `deploy → [check]`,
`check → []`, tracing the install flow yields exactly
`[check, deploy, install]`, with `check` occurring exactly once. -/
theorem c9_trace_install_flow :
    (trace_target_flow (identify_deployment_targets c9_analysis) "install".toList).install_flow
      = ["check".toList, "deploy".toList, "install".toList] ∧
    ((trace_target_flow (identify_deployment_targets c9_analysis) "install".toList).install_flow.count
      "check".toList) = 1 := by
  decide

/-! ## C7: variable-assignment versus target-definition classification -/

/-- C7 counterexample: on `foo: bar ?= baz` every assignment operator comes
after the rule's colon, yet the classifier reports a variable assignment,
and the parser records the variable `foo: bar` with value `baz` instead of a
target — refuting the claim that such lines are classified as target
definitions; `install: $(OBJS:=.o)` is likewise taken for an assignment. -/
theorem c7_counterexample :
    is_variable_definition "foo: bar ?= baz".toList = true ∧
    (analysisOf (parse_makefile ["foo: bar ?= baz".toList])).targets = [] ∧
    (analysisOf (parse_makefile ["foo: bar ?= baz".toList])).vars =
      [("foo: bar".toList, "baz".toList)] ∧
    is_variable_definition "install: $(OBJS:=.o)".toList = true := by
  decide

/-! ## C5 counterexample: a `)` inside the shell command -/

/-- C5 counterexample: for the command `a)b`, expanding `$(shell a)b)`
produces `<shell:a>b)` — the regex `\$\(shell\s+([^)]+)\)` stops at the
first `)`, so the placeholder is not `<shell:a)b>` as the claim (quantified
over every command string) requires. -/
theorem c5_counterexample :
    (expandF 100 freshEngine "$(shell a)b)".toList none []).1.expanded =
      "<shell:a>b)".toList ∧
    (expandF 100 freshEngine "$(shell a)b)".toList none []).1.expanded ≠
      "<shell:a)b>".toList := by
  decide


/-! ## C5 amended: the shell placeholder -/

/-- Dropping at most the leading whitespace run does not change `strip`. -/
theorem stripWs_drop (s : Str) (k : Nat) :
    k ≤ (s.takeWhile isWsChar).length → stripWs (s.drop k) = stripWs s := by
  induction k generalizing s with
  | zero => intro _; rfl
  | succ k ih =>
    intro h
    cases s with
    | nil => rfl
    | cons c s' =>
      by_cases hc : isWsChar c
      · have h' : k ≤ (s'.takeWhile isWsChar).length := by
          rw [List.takeWhile_cons, if_pos hc] at h
          simpa using h
        have hdrop : (c :: s').drop (k + 1) = s'.drop k := rfl
        have hstrip : stripWs (c :: s') = stripWs s' := by
          unfold stripWs lstripWs
          rw [List.dropWhile_cons, if_pos hc]
        rw [hdrop, ih s' h', hstrip]
      · rw [List.takeWhile_cons, if_neg hc] at h
        simp at h

/-- Characters of the stripped string come from the string. -/
theorem mem_of_mem_stripWs (s : Str) (c : Char) (h : c ∈ stripWs s) : c ∈ s := by
  unfold stripWs lstripWs at h
  rw [List.mem_reverse] at h
  have h2 := (List.dropWhile_sublist _).mem h
  rw [List.mem_reverse] at h2
  exact (List.dropWhile_sublist _).mem h2

/-- `takeWhile` stops exactly at an appended terminator. -/
theorem takeWhile_append_stop (p : Char → Bool) (C : Str) (x : Char)
    (hC : ∀ c ∈ C, p c = true) (hx : p x = false) :
    (C ++ [x]).takeWhile p = C := by
  induction C with
  | nil => simp [List.takeWhile_cons, hx]
  | cons c rest ih =>
    rw [List.cons_append, List.takeWhile_cons, if_pos (hC c (List.mem_cons_self _ _))]
    rw [ih (fun d hd => hC d (List.mem_cons_of_mem _ hd))]

theorem stripWs_shellGrp (C : Str) : stripWs (shellGrp C) = stripWs C := by
  have h1 : stripWs (shellGrp C) = stripWs (' ' :: C) :=
    stripWs_drop (' ' :: C) _ (min_le_left _ _)
  have h2 : stripWs (' ' :: C) = stripWs C := by
    unfold stripWs lstripWs
    rw [List.dropWhile_cons, if_pos (by decide)]
  rw [h1, h2]

theorem shell_plusArg (C : Str) (hne : C ≠ []) (hpar : ')' ∉ C) :
    plusArg ')' (' ' :: (C ++ [')'])) = some (shellGrp C, C.length + 2) := by
  have htw : (C ++ [')']).takeWhile (fun c => c != ')') = C := by
    refine takeWhile_append_stop _ C ')' (fun c hc => ?_) (by decide)
    have hcne : c ≠ ')' := fun h => hpar (h ▸ hc)
    exact bne_iff_ne.mpr hcne
  have hregion : (' ' :: (C ++ [')'])).takeWhile (fun c => c != ')') = ' ' :: C := by
    rw [List.takeWhile_cons, if_pos (by decide), htw]
  have hC1 : 1 ≤ C.length := by
    cases C with
    | nil => exact absurd rfl hne
    | cons a l => simp
  simp only [plusArg, hregion]
  rw [if_pos ?cond]
  case cond =>
    simp only [Bool.and_eq_true, decide_eq_true_eq]
    refine ⟨⟨?_, ?_⟩, rfl⟩
    · simp [List.length_append]
    · simp
      omega
  have hw : (' ' :: C).length - 1 = C.length := by simp
  rw [hw]
  have hl : (' ' :: C).length + 1 = C.length + 2 := by simp
  rw [hl]
  rfl

theorem shell_matchAt (C : Str) (hne : C ≠ []) (hpar : ')' ∉ C) :
    funcMatchAt "shell".toList .one
        ('$' :: '(' :: ('s' :: 'h' :: 'e' :: 'l' :: 'l' :: ' ' :: (C ++ [')']))) =
      some (C.length + 9, [shellGrp C]) := by
  simp only [funcMatchAt]
  rw [if_pos (show ciPrefixL "shell".toList
      ('s' :: 'h' :: 'e' :: 'l' :: 'l' :: ' ' :: (C ++ [')'])) = true from rfl)]
  have hdrop : ('s' :: 'h' :: 'e' :: 'l' :: 'l' :: ' ' :: (C ++ [')'])).drop
      "shell".toList.length = ' ' :: (C ++ [')']) := rfl
  rw [hdrop]
  have hshape : shapeMatch .one (' ' :: (C ++ [')'])) =
      some ([shellGrp C], C.length + 2) := by
    simp only [shapeMatch, shell_plusArg C hne hpar, Option.map]
  rw [hshape]
  show some (2 + "shell".toList.length + (C.length + 2), [shellGrp C]) =
    some (C.length + 9, [shellGrp C])
  have : 2 + "shell".toList.length + (C.length + 2) = C.length + 9 := by
    show 2 + 5 + (C.length + 2) = C.length + 9
    omega
  rw [this]

theorem funcScanGo_nil (fname : Str) (shape : ArgShape) (fuel pos : Nat) :
    funcScanGo fname shape (fuel + 1) pos [] = [] := by
  rw [funcScanGo]

/-- A function-pattern match always begins with a dollar sign. -/
theorem funcMatchAt_no_dollar (fname : Str) (shape : ArgShape) (s : Str)
    (h : '$' ∉ s) : funcMatchAt fname shape s = none := by
  unfold funcMatchAt
  split
  · simp at h
  · rfl

theorem funcScanGo_no_dollar (fname : Str) (shape : ArgShape) (fuel : Nat) :
    ∀ (pos : Nat) (s : Str), '$' ∉ s → funcScanGo fname shape fuel pos s = [] := by
  induction fuel with
  | zero => intro pos s _; rw [funcScanGo]
  | succ fuel ih =>
    intro pos s h
    cases s with
    | nil => rw [funcScanGo]
    | cons c rest =>
      rw [funcScanGo, funcMatchAt_no_dollar fname shape _ h]
      exact ih (pos + 1) rest (fun hm => h (List.mem_cons_of_mem _ hm))

theorem funcScan_no_dollar (fname : Str) (shape : ArgShape) (s : Str)
    (h : '$' ∉ s) : funcScan fname shape s = [] :=
  funcScanGo_no_dollar fname shape _ 0 s h

theorem applyFuncMatches_nil (st : ExpState) (fname text : Str) (fns : List Str) :
    applyFuncMatches st fname text fns [] = (text, fns) := by
  rw [applyFuncMatches]

/-- With no dollar sign in the text, one pattern step leaves text and
used-set unchanged. -/
theorem funcStep_no_dollar (st : ExpState) (text : Str) (fns : List Str)
    (nmsh : Str × ArgShape) (h : '$' ∉ text) :
    funcStep st (text, fns) nmsh = (text, fns) := by
  unfold funcStep
  rw [funcScan_no_dollar nmsh.1 nmsh.2 text h]
  exact applyFuncMatches_nil st nmsh.1 text fns

/-- With no dollar sign in the text, the whole pattern table leaves it
unchanged. -/
theorem foldFuncs_no_dollar (st : ExpState) (pats : List (Str × ArgShape)) :
    ∀ (text : Str) (fns : List Str), '$' ∉ text →
      pats.foldl (funcStep st) (text, fns) = (text, fns) := by
  induction pats with
  | nil => intro text fns _; rfl
  | cons p rest ih =>
    intro text fns h
    rw [List.foldl_cons, funcStep_no_dollar st text fns p h]
    exact ih text fns h

/-- A variable-reference match always begins with a dollar sign. -/
theorem varMatchAt_no_dollar (s : Str) (h : '$' ∉ s) : varMatchAt s = none := by
  unfold varMatchAt
  split
  · simp at h
  · rfl

theorem varScanGo_no_dollar (fuel : Nat) :
    ∀ (pos : Nat) (s : Str), '$' ∉ s → varScanGo fuel pos s = [] := by
  induction fuel with
  | zero => intro pos s _; rw [varScanGo]
  | succ fuel ih =>
    intro pos s h
    cases s with
    | nil => rw [varScanGo]
    | cons c rest =>
      rw [varScanGo, varMatchAt_no_dollar _ h]
      exact ih (pos + 1) rest (fun hm => h (List.mem_cons_of_mem _ hm))

theorem varScan_no_dollar (s : Str) (h : '$' ∉ s) : varScan s = [] :=
  varScanGo_no_dollar _ 0 s h

theorem shell_funcScan (C : Str) (hne : C ≠ []) (hpar : ')' ∉ C) :
    funcScan "shell".toList .one ("$(shell ".toList ++ C ++ ")".toList) =
      [⟨0, C.length + 9, [shellGrp C]⟩] := by
  have hlen : ("$(shell ".toList ++ C ++ ")".toList).length = C.length + 9 := by
    simp [List.length_append]
  unfold funcScan
  rw [hlen]
  show funcScanGo "shell".toList .one (C.length + 9 + 1) 0
      ('$' :: '(' :: ('s' :: 'h' :: 'e' :: 'l' :: 'l' :: ' ' :: (C ++ [')']))) =
    [⟨0, C.length + 9, [shellGrp C]⟩]
  rw [funcScanGo, shell_matchAt C hne hpar]
  have hdrop : (('$' :: '(' :: ('s' :: 'h' :: 'e' :: 'l' :: 'l' :: ' ' :: (C ++ [')'])))).drop
      (C.length + 9) = [] := by
    apply List.drop_eq_nil_of_le
    simp [List.length_append]
  simp only [hdrop, Nat.zero_add]
  have hnil : funcScanGo "shell".toList .one (C.length + 9) (C.length + 9) [] = [] :=
    funcScanGo_nil "shell".toList .one (C.length + 8) (C.length + 9)
  rw [hnil]

theorem evaluate_shell (st : ExpState) (g : Str) :
    evaluate_function st "shell".toList [g] =
      "<shell:".toList ++ stripWs g ++ ">".toList := by
  simp [evaluate_function]

theorem shell_funcStep (C : Str) (hne : C ≠ []) (hpar : ')' ∉ C) (st : ExpState) :
    funcStep st ("$(shell ".toList ++ C ++ ")".toList, []) ("shell".toList, .one) =
      ("<shell:".toList ++ stripWs C ++ ">".toList, ["shell".toList]) := by
  unfold funcStep
  rw [shell_funcScan C hne hpar]
  show applyFuncMatches st "shell".toList ("$(shell ".toList ++ C ++ ")".toList) []
      [⟨0, C.length + 9, [shellGrp C]⟩] =
    ("<shell:".toList ++ stripWs C ++ ">".toList, ["shell".toList])
  rw [applyFuncMatches]
  have hdrop : ("$(shell ".toList ++ C ++ ")".toList).drop (C.length + 9) = [] := by
    apply List.drop_eq_nil_of_le
    simp [List.length_append]
  simp only [evaluate_shell, stripWs_shellGrp, spliceAt, hdrop, List.take_zero,
    List.nil_append, List.append_nil]
  rw [applyFuncMatches]
  simp [setAdd]

theorem no_dollar_sh_placeholder (C : Str) (hdol : '$' ∉ C) :
    '$' ∉ "<shell:".toList ++ stripWs C ++ ">".toList := by
  intro h
  rcases List.mem_append.mp h with h1 | h2
  · rcases List.mem_append.mp h1 with h1a | h1b
    · simp at h1a
    · exact hdol (mem_of_mem_stripWs C '$' h1b)
  · simp at h2

theorem shell_expandFunctionCalls (C : Str) (hne : C ≠ []) (hpar : ')' ∉ C)
    (hdol : '$' ∉ C) (st : ExpState) :
    expandFunctionCalls st ("$(shell ".toList ++ C ++ ")".toList) =
      ("<shell:".toList ++ stripWs C ++ ">".toList, ["shell".toList]) := by
  unfold expandFunctionCalls
  rw [funcTable]
  rw [List.foldl_cons, shell_funcStep C hne hpar st]
  exact foldFuncs_no_dollar st _ _ _ (no_dollar_sh_placeholder C hdol)

theorem shell_expandPasses (C : Str) (hne : C ≠ []) (hpar : ')' ∉ C) (hdol : '$' ∉ C)
    (er : ExpState → Str → VariableExpansion × ExpState) (st : ExpState) :
    (expandPasses er st ("$(shell ".toList ++ C ++ ")".toList) none []).1 =
      { original := "$(shell ".toList ++ C ++ ")".toList,
        expanded := "<shell:".toList ++ stripWs C ++ ">".toList,
        functions_used := ["shell".toList] } := by
  unfold expandPasses
  simp only [shell_expandFunctionCalls C hne hpar hdol st,
    varScan_no_dollar _ (no_dollar_sh_placeholder C hdol), List.reverse_nil, List.foldl_nil]

theorem expandCore_fst (er : ExpState → Str → VariableExpansion × ExpState)
    (st : ExpState) (t : Str) (tg : Option Str) (d : List Str) (key : Str) :
    (expandCore er st t tg d key).1 = (expandPasses er st t tg d).1 := by
  unfold expandCore
  rcases h : expandPasses er st t tg d with ⟨r, s3⟩
  rfl

/-- C5 amended: for every command string C that is non-empty and contains
neither a closing parenthesis nor a dollar sign, expanding the text
`$(shell C)` (no target context) replaces the call by the opaque
placeholder `<shell:C2>` where C2 is C with surrounding whitespace
stripped, records `shell` in the functions-used set, and nothing else —
for every variable table, environment snapshot, working directory,
filesystem view and fuel.  The `shell` evaluator of the embedding only
constructs this placeholder string: the command is never executed. -/
theorem c5_shell_placeholder (C : Str) (hne : C ≠ []) (hpar : ')' ∉ C) (hdol : '$' ∉ C)
    (vars : List (Str × Str)) (env : Str → Option Str) (curdir : Str)
    (globFn : Str → List Str) (resolveFn : Str → Str) (fuel : Nat) :
    (expandF (fuel + 1) (mk_expander vars env curdir globFn resolveFn)
        ("$(shell ".toList ++ C ++ ")".toList) none []).1 =
      { original := "$(shell ".toList ++ C ++ ")".toList,
        expanded := "<shell:".toList ++ stripWs C ++ ">".toList,
        functions_used := ["shell".toList] } := by
  rw [expandF]
  rw [show assocGet (mk_expander vars env curdir globFn resolveFn).cache
      (cacheKey ("$(shell ".toList ++ C ++ ")".toList) none []) = none from rfl]
  simp only
  rw [if_neg (Nat.not_lt.mpr (show (mk_expander vars env curdir globFn
      resolveFn).stack.length ≤ max_recursion_depth from by
    show (0 : Nat) ≤ max_recursion_depth
    decide))]
  rw [expandCore_fst]
  exact shell_expandPasses C hne hpar hdol _ _

theorem c5_shell_placeholder_witness :
    (expandF 100 (mk_expander [] envEmpty [] globEmpty resolveId)
        ("$(shell ".toList ++ "echo hi".toList ++ ")".toList) none []).1 =
      { original := ("$(shell ".toList ++ "echo hi".toList ++ ")".toList : Str),
        expanded := "<shell:".toList ++ stripWs "echo hi".toList ++ ">".toList,
        functions_used := ["shell".toList] } :=
  c5_shell_placeholder "echo hi".toList (by decide) (by decide) (by decide)
    [] envEmpty [] globEmpty resolveId 99

/-! ## C8: memoization -/

/-- Cache-hit behaviour of `expand`: when the key is already cached, the
cached result is returned and the state is unchanged. -/
theorem expandF_cache_hit (fuel : Nat) (st : ExpState) (text : Str) (tgt : Option Str)
    (deps : List Str) (r : VariableExpansion)
    (h : assocGet st.cache (cacheKey text tgt deps) = some r) :
    expandF (fuel + 1) st text tgt deps = (r, st) := by
  rw [expandF, h]

/-- `expandCore` stores its own result in the cache under its key. -/
theorem expandCore_caches (er : ExpState → Str → VariableExpansion × ExpState)
    (st : ExpState) (text : Str) (tgt : Option Str) (deps : List Str) (key : Str) :
    assocGet (expandCore er st text tgt deps key).2.cache key =
      some (expandCore er st text tgt deps key).1 := by
  unfold expandCore
  rcases h : expandPasses er st text tgt deps with ⟨result, st3⟩
  show assocGet (assocPut st3.cache key result) key = some result
  exact assocGet_assocPut_self _ _ _

/-- A completed (non-cache-hit, non-depth-capped) `expand` call stores its
own result in the cache under its key. -/
theorem expandF_caches (fuel : Nat) (st : ExpState) (text : Str) (tgt : Option Str)
    (deps : List Str)
    (hc : assocGet st.cache (cacheKey text tgt deps) = none)
    (hs : st.stack.length ≤ max_recursion_depth) :
    assocGet (expandF (fuel + 1) st text tgt deps).2.cache (cacheKey text tgt deps) =
      some (expandF (fuel + 1) st text tgt deps).1 := by
  rw [expandF, hc]
  simp only
  rw [if_neg (Nat.not_lt.mpr hs)]
  exact expandCore_caches _ _ _ _ _ _

/-- C8 amended: memoization is keyed by the joined string
`text:target:deps`, not by the triple.  Starting from a fresh engine, a
second client call whose key string equals the first call's key returns
exactly the first call's result: two calls with equal triples therefore
return equal results, but two distinct triples whose key strings collide
(such as `("a:b", "c", [])` and `("a", "b:c", [])`) also share the one
cached result, so a call can return something other than its own fresh,
cache-free expansion. -/
theorem c8_memoization_by_key (vars : List (Str × Str)) (env : Str → Option Str)
    (curdir : Str) (globFn : Str → List Str) (resolveFn : Str → Str) (f1 f2 : Nat)
    (t1 t2 : Str) (g1 g2 : Option Str) (d1 d2 : List Str)
    (hkey : cacheKey t1 g1 d1 = cacheKey t2 g2 d2) :
    (expandF (f2 + 1)
        (expandF (f1 + 1) (mk_expander vars env curdir globFn resolveFn) t1 g1 d1).2
        t2 g2 d2).1 =
      (expandF (f1 + 1) (mk_expander vars env curdir globFn resolveFn) t1 g1 d1).1 := by
  have hc : assocGet (mk_expander vars env curdir globFn resolveFn).cache
      (cacheKey t1 g1 d1) = none := rfl
  have hs : (mk_expander vars env curdir globFn resolveFn).stack.length ≤
      max_recursion_depth := by
    show (0 : Nat) ≤ max_recursion_depth
    simp [max_recursion_depth]
  have hcached := expandF_caches f1 _ t1 g1 d1 hc hs
  rw [expandF_cache_hit f2 _ t2 g2 d2 _ (by rw [← hkey]; exact hcached)]

theorem c8_memoization_by_key_witness :
    (expandF 100 (expandF 100 (mk_expander [] envEmpty [] globEmpty resolveId)
        "a:b".toList (some "c".toList) []).2 "a".toList (some "b:c".toList) []).1 =
      (expandF 100 (mk_expander [] envEmpty [] globEmpty resolveId)
        "a:b".toList (some "c".toList) []).1 :=
  c8_memoization_by_key [] envEmpty [] globEmpty resolveId 99 99
    "a:b".toList "a".toList (some "c".toList) (some "b:c".toList) [] [] (by decide)

/-- C8 counterexample: the distinct triples `("a:b", "c", [])` and
`("a", "b:c", [])` share the cache key `"a:b:c:"`; after the first call, the
second returns the cached result for the other triple (expanded text
`"a:b"`), while a fresh cache-free expansion of `("a", "b:c", [])` returns
`"a"` — refuting the claim that memoization is keyed by the triple and
semantically transparent. -/
theorem c8_counterexample :
    cacheKey "a:b".toList (some "c".toList) [] =
      cacheKey "a".toList (some "b:c".toList) [] ∧
    (expandF 100 (expandF 100 freshEngine "a:b".toList (some "c".toList) []).2
        "a".toList (some "b:c".toList) []).1.expanded = "a:b".toList ∧
    (expandF 100 freshEngine "a".toList (some "b:c".toList) []).1.expanded =
      "a".toList ∧
    "a:b".toList ≠ "a".toList := by
  decide

/-! ## C7 amended: the colon guard exists only for plain `=` -/

theorem isVarDefGo_skip (line op : Str) (rest : List Str)
    (h : isSubstr op line = false) :
    isVariableDefinitionGo line (op :: rest) = isVariableDefinitionGo line rest := by
  simp [isVariableDefinitionGo, h]

theorem isVarDefGo_eq_continue (line : Str) (rest : List Str)
    (h6 : isSubstr "=".toList line = true) (h7 : isSubstr ":".toList line = true)
    (cp ep : Nat) (hcp : idxOfChar ':' line = some cp)
    (hep : idxOfChar '=' line = some ep) (hlt : cp < ep) :
    isVariableDefinitionGo line ("=".toList :: rest) = isVariableDefinitionGo line rest := by
  have h6a : isSubstr ['='] line = true := h6
  have h7a : isSubstr [':'] line = true := h7
  simp [isVariableDefinitionGo, h6a, h7a, hcp, hep, hlt]

/-- C7 amended: the position-based disambiguation (assignment operator not
preceded by an earlier colon) is applied by the classifier only to the
plain `=` operator.  For a non-recipe line that contains none of `::=`,
`:=`, `!=`, `?=`, `+=`, in which `=` occurs with the first colon strictly
before the first `=`, the line is not a variable assignment; and when no
`=?+!` character occurs before the first colon it is a target definition.
(A line whose only operator occurrence is `:=`, `?=`, `+=` or `!=` after
the rule's colon is instead classified as a variable assignment, as the
counterexample shows.) -/
theorem c7_equals_colon_guard (line : Str)
    (htab : isPrefixL "\t".toList line = false)
    (h1 : isSubstr "::=".toList line = false)
    (h2 : isSubstr ":=".toList line = false)
    (h3 : isSubstr "!=".toList line = false)
    (h4 : isSubstr "?=".toList line = false)
    (h5 : isSubstr "+=".toList line = false)
    (h6 : isSubstr "=".toList line = true)
    (h7 : isSubstr ":".toList line = true)
    (cp ep : Nat)
    (hcp : idxOfChar ':' line = some cp)
    (hep : idxOfChar '=' line = some ep)
    (hlt : cp < ep)
    (hpre : ∀ c ∈ takeBeforeChar ':' line, c ≠ '=' ∧ c ≠ '?' ∧ c ≠ '+' ∧ c ≠ '!') :
    is_variable_definition line = false ∧ is_target_definition line = true := by
  constructor
  · rw [is_variable_definition, htab]
    simp only [Bool.false_eq_true, if_false]
    rw [assignmentOps]
    rw [isVarDefGo_skip _ _ _ h1, isVarDefGo_skip _ _ _ h2, isVarDefGo_skip _ _ _ h3,
        isVarDefGo_skip _ _ _ h4, isVarDefGo_skip _ _ _ h5,
        isVarDefGo_eq_continue _ _ h6 h7 cp ep hcp hep hlt]
    rw [isVariableDefinitionGo]
  · rw [is_target_definition, h7]
    have he : ¬ ('=' ∈ takeBeforeChar ':' line) := fun h => ((hpre '=' h).1 rfl)
    have hq : ¬ ('?' ∈ takeBeforeChar ':' line) := fun h => ((hpre '?' h).2.1 rfl)
    have hp : ¬ ('+' ∈ takeBeforeChar ':' line) := fun h => ((hpre '+' h).2.2.1 rfl)
    have hb : ¬ ('!' ∈ takeBeforeChar ':' line) := fun h => ((hpre '!' h).2.2.2 rfl)
    simp [he, hq, hp, hb]

theorem c7_equals_colon_guard_witness :
    is_variable_definition "install: deps = x".toList = false ∧
    is_target_definition "install: deps = x".toList = true :=
  c7_equals_colon_guard "install: deps = x".toList rfl (by decide) (by decide)
    (by decide) (by decide) (by decide) (by decide) (by decide) 7 14
    (by decide) (by decide) (by decide) (by decide)

/-! ## C10: hard-coded conditional defaults -/

/-- An adversarial environment snapshot defining every name as `WRONG`;
used to exhibit that injected defaults shadow environment variables. -/
def envShadow : Str → Option Str := fun _ => some "WRONG".toList

theorem defaults_fold_preserve (ds : List (Str × Str)) :
    ∀ (vars : List (Str × Str)) (nm : Str),
      (∀ dv ∈ ds, dv.1 ≠ nm) →
      assocGet (ds.foldl defaultsStep vars) nm = assocGet vars nm := by
  induction ds with
  | nil => intro vars nm _; rfl
  | cons d rest ih =>
    intro vars nm hnot
    rw [List.foldl_cons, ih _ nm (fun dv hm => hnot dv (List.mem_cons_of_mem _ hm))]
    cases h : assocGet vars d.1 with
    | some v => simp [defaultsStep, h]
    | none =>
      simp [defaultsStep, h,
        assocGet_assocPut_ne _ d.1 nm d.2 (hnot d (List.mem_cons_self _ _))]

theorem defaults_fold_lookup (ds : List (Str × Str)) :
    ∀ (vars : List (Str × Str)) (nm dflt : Str),
      assocGet vars nm = none →
      assocGet ds nm = some dflt →
      ds.Pairwise (fun a b => a.1 ≠ b.1) →
      assocGet (ds.foldl defaultsStep vars) nm = some dflt := by
  induction ds with
  | nil => intro vars nm dflt _ hmem _; simp [assocGet] at hmem
  | cons d rest ih =>
    intro vars nm dflt hnd hmem hdup
    obtain ⟨k, v⟩ := d
    rw [List.foldl_cons]
    rw [List.pairwise_cons] at hdup
    by_cases hk : k = nm
    · subst hk
      have hv : v = dflt := by
        rw [assocGet] at hmem
        simp at hmem
        exact hmem
      subst hv
      have hstep : defaultsStep vars (k, v) = assocPut vars k v := by
        simp [defaultsStep, hnd]
      rw [hstep]
      rw [defaults_fold_preserve rest _ k (fun dv hm => (hdup.1 dv hm).symm)]
      exact assocGet_assocPut_self _ _ _
    · have hmem' : assocGet rest nm = some dflt := by
        rw [assocGet] at hmem
        simpa [hk] using hmem
      cases h : assocGet vars k with
      | some w =>
        have hstep : defaultsStep vars (k, v) = vars := by simp [defaultsStep, h]
        rw [hstep]
        exact ih vars nm dflt hnd hmem' hdup.2
      | none =>
        have hstep : defaultsStep vars (k, v) = assocPut vars k v := by
          simp [defaultsStep, h]
        rw [hstep]
        exact ih _ nm dflt (by rw [assocGet_assocPut_ne _ _ _ _ hk]; exact hnd) hmem' hdup.2

/-- C10: (1) at construction the engine injects the hard-coded default for
every name of the defaults table that the analyzed Makefile did not define;
(2) the Make variable table is consulted before the environment, so a
defined, `$`-free value is returned regardless of the environment snapshot;
(3) end-to-end, on an engine built over an empty Makefile table and an
environment snapshot that maps every name (these five included) to the value
`WRONG`, expanding `$(NAME)` for each of the five names yields its default
value — with nothing recorded as unexpanded — rather than the environment
value or an `${NAME}` marker: the injected default shadows the environment
variable of the same name. -/
theorem c10_conditional_defaults :
    (∀ (vars : List (Str × Str)) (nm dflt : Str),
        assocGet conditionalDefaults nm = some dflt →
        assocGet vars nm = none →
        assocGet (apply_conditional_defaults vars) nm = some dflt) ∧
    (∀ (er : ExpState → Str → VariableExpansion × ExpState) (st : ExpState)
        (nm v : Str) (sets : UseSets),
        nm ∉ st.stack → nm ≠ "$".toList →
        assocGet st.vars nm = some v → '$' ∉ v →
        get_variable_value er st nm sets =
          (v, { sets with variables_used := setAdd sets.variables_used nm }, st)) ∧
    (((expandF 100 (mk_expander [] envShadow [] globEmpty resolveId)
          "$(METRIC_UI_CHART_PATH)".toList none []).1.expanded = "metric-ui".toList ∧
       (expandF 100 (mk_expander [] envShadow [] globEmpty resolveId)
          "$(METRIC_UI_CHART_PATH)".toList none []).1.unexpanded_vars = []) ∧
      ((expandF 100 (mk_expander [] envShadow [] globEmpty resolveId)
          "$(PROMETHEUS_CHART_PATH)".toList none []).1.expanded = "prometheus".toList ∧
       (expandF 100 (mk_expander [] envShadow [] globEmpty resolveId)
          "$(PROMETHEUS_CHART_PATH)".toList none []).1.unexpanded_vars = []) ∧
      ((expandF 100 (mk_expander [] envShadow [] globEmpty resolveId)
          "$(METRIC_UI_RELEASE_NAME)".toList none []).1.expanded = "metric-ui".toList ∧
       (expandF 100 (mk_expander [] envShadow [] globEmpty resolveId)
          "$(METRIC_UI_RELEASE_NAME)".toList none []).1.unexpanded_vars = []) ∧
      ((expandF 100 (mk_expander [] envShadow [] globEmpty resolveId)
          "$(PROMETHEUS_RELEASE_NAME)".toList none []).1.expanded = "prometheus".toList ∧
       (expandF 100 (mk_expander [] envShadow [] globEmpty resolveId)
          "$(PROMETHEUS_RELEASE_NAME)".toList none []).1.unexpanded_vars = []) ∧
      ((expandF 100 (mk_expander [] envShadow [] globEmpty resolveId)
          "$(REGION)".toList none []).1.expanded = "us-east-1".toList ∧
       (expandF 100 (mk_expander [] envShadow [] globEmpty resolveId)
          "$(REGION)".toList none []).1.unexpanded_vars = [])) := by
  refine ⟨?_, ?_, ?_⟩
  · intro vars nm dflt hmem hnd
    exact defaults_fold_lookup conditionalDefaults vars nm dflt hnd hmem (by decide)
  · intro er st nm v sets hstack hdollar hv hnod
    unfold get_variable_value
    rw [if_neg hdollar, if_neg hstack, hv]
    simp only
    rw [if_neg hnod]
    simp [removeFirst]
  · decide

theorem c10_conditional_defaults_witness :
    assocGet (apply_conditional_defaults []) "REGION".toList = some "us-east-1".toList ∧
    get_variable_value (fun st t => (depthResult t, st)) freshEngine "REGION".toList {} =
      ("us-east-1".toList, { variables_used := ["REGION".toList] }, freshEngine) ∧
    (expandF 100 (mk_expander [] envShadow [] globEmpty resolveId)
       "$(REGION)".toList none []).1.expanded = "us-east-1".toList := by
  refine ⟨c10_conditional_defaults.1 [] _ _ (by decide) rfl, ?_, ?_⟩
  · exact c10_conditional_defaults.2.1 (fun st t => (depthResult t, st)) freshEngine
      "REGION".toList "us-east-1".toList {} (by decide) (by decide) (by decide) (by decide)
  · exact c10_conditional_defaults.2.2.2.2.2.2.1
